import Mathlib

/-!
# Verification of the libvfn IOMMU/NVMe core against its specification

This development gives a shallow embedding of the core of libvfn:

* the IOVA index (`src/vfio/core.c`, second compilation unit: the
  eight-level skip list `struct iova_map` with `__iova_map_find_path`,
  `iova_map_add`, `iova_map_remove`, `iova_map_clear_with`),
* the IOVA bump allocator (`iommu_get_iova`),
* the context layer (`iommu_add_mapping`, `iommu_remove_mapping`,
  `iommu_vaddr_to_iova`, `iommu_find_mapping`),
* the vfio layer (`vfio_map_vaddr`, `vfio_unmap_vaddr`),
* the NVMe helpers (`nvme_oneshot`, `nvme_cq_wait_cqes`, `nvme_crc64`).

Machine integers are modelled as `Nat` with explicit `% 2 ^ 64` where the C
code can wrap.  Pointers (`void *vaddr`) are modelled as `Nat` keys; the C
code compares and offsets them but never dereferences them through the index.

## Modelling the skip list

A `struct iova_map_entry` owns forward links `list[0] .. list[k]` for a
contiguous range of levels `0 .. k` (insertion links levels `k` down to `0`;
removal unlinks the same contiguous range).  We therefore represent the list
as the base (level-0) chain of nodes in list order, each node carrying its
top level `lvl`; the level-`k` chain is the subsequence of nodes with
`lvl ≥ k`.  The sentinel head and the `nil` tail (vaddr `UINT64_MAX`) bound
every level in the C code; they are kept implicit in the node list (the walk
stops at the end of the list exactly as it stops at `nil` for queries below
`UINT64_MAX`, which is a precondition of the C code: for a query equal to
`UINT64_MAX` the C walk would step past `nil` and dereference NULL).
-/

deriving instance DecidableEq for Except

namespace LibVfn

/-- errno values used by the embedded code (from `<errno.h>`). -/
def ENOENT : Nat := 2
def EIO : Nat := 5
def EAGAIN : Nat := 11
def ENOMEM : Nat := 12
def EBUSY : Nat := 16
def EEXIST : Nat := 17
def EINVAL : Nat := 22
def ETIMEDOUT : Nat := 110

/-- `2 ^ 64`, the modulus of `uint64_t` arithmetic. -/
def U64 : Nat := 2 ^ 64

/-- `UINT64_MAX`, the vaddr of the `nil` tail sentinel. -/
def UINT64MAX : Nat := 2 ^ 64 - 1

/-- `__VFN_IOVA_MIN` (0x10000). -/
def IOVA_MIN : Nat := 0x10000

/-- `IOVA_MAX_39BITS` (1 << 39). -/
def IOVA_MAX_39BITS : Nat := 2 ^ 39

/-- `#define SKIPLIST_LEVELS 8` -/
def SKIPLIST_LEVELS : Nat := 8

/-- `struct iova_mapping`: the triple `(vaddr, len, iova)`. -/
structure IovaMapping where
  vaddr : Nat
  len : Nat
  iova : Nat
  deriving DecidableEq, Repr

/-- A skip-list node (`struct iova_map_entry`): its mapping plus the top
level `lvl` it occupies (the node is linked into levels `0 .. lvl`). -/
structure MapNode where
  mapping : IovaMapping
  lvl : Nat
  deriving DecidableEq, Repr

/-- `struct iova_map`: `height` plus the level-0 chain of entries in list
order (sentinel and nil are implicit, see the module comment). -/
structure IovaMap where
  height : Nat
  nodes : List MapNode
  deriving DecidableEq, Repr

/-- The empty index produced by `iova_map_init`. -/
def iova_map_init : IovaMap := ⟨0, []⟩

/-- `n->mapping.vaddr + n->mapping.len`, the key the walk compares against. -/
def nodeEnd (n : MapNode) : Nat := n.mapping.vaddr + n.mapping.len

/-- Does the first node of `ns` that is linked at level `k` satisfy
`nodeEnd ≤ q` (so that the level-`k` walk advances past it)?  This mirrors
the loop condition `vaddr >= next->mapping.vaddr + next->mapping.len` of
`__iova_map_find_path`, where `next` is the level-`k` successor. -/
def seekOk (q k : Nat) : List MapNode → Bool
  | [] => false
  | n :: rest => if k ≤ n.lvl then decide (nodeEnd n ≤ q) else seekOk q k rest

/-- One level of the descent of `__iova_map_find_path`: starting from the
current position (the suffix `ns` of the base chain strictly after the
current node `p`), repeatedly advance `p` to its level-`k` successor while
that successor satisfies `nodeEnd ≤ q`.  The result is the suffix strictly
after the final `p`.  A node below level `k` is skipped only when the walk
advances past a level-`k` node behind it. -/
def walkLevel (q k : Nat) : List MapNode → List MapNode
  | [] => []
  | n :: rest =>
    if k ≤ n.lvl then
      if nodeEnd n ≤ q then walkLevel q k rest else n :: rest
    else
      if seekOk q k rest then walkLevel q k rest else n :: rest

/-- The full descent of `__iova_map_find_path` from level `k` down to level
0: `descend q ns k` performs the level-`k` walk, then continues on the lower
levels.  The result is the position (suffix of the base chain) right after
the final predecessor `p` at level 0; its head is `skip_list_next(p, 0)`. -/
def descend (q : Nat) (ns : List MapNode) : Nat → List MapNode
  | 0 => walkLevel q 0 ns
  | k + 1 => descend q (walkLevel q (k + 1) ns) k

/-- The final position computed by `__iova_map_find_path(map, vaddr, path)`:
the descent starts at `map->height`. -/
def iova_map_find_path (m : IovaMap) (vaddr : Nat) : List MapNode :=
  descend vaddr m.nodes m.height

/-- The lookup result of `__iova_map_find_path`: the node after the final
predecessor, if it contains `vaddr`
(`vaddr >= p->mapping.vaddr && vaddr < p->mapping.vaddr + p->mapping.len`).
When the position is at the end of the chain the C successor is `nil`, whose
containment test is false for every `vaddr < UINT64_MAX`. -/
def iova_map_find (m : IovaMap) (vaddr : Nat) : Option IovaMapping :=
  match iova_map_find_path m vaddr with
  | [] => none
  | n :: _ =>
    if n.mapping.vaddr ≤ vaddr ∧ vaddr < nodeEnd n then some n.mapping else none

/-- `random_level()`: geometric draw capped at `SKIPLIST_LEVELS - 1`.  The
draw itself is modelled as an oracle `l` supplied by the caller; the cap is
part of the function. -/
def random_level (l : Nat) : Nat := min l (SKIPLIST_LEVELS - 1)

/-- `iova_map_add` (including `__iova_map_add`): fail with `EEXIST` when an
existing entry contains `vaddr`; otherwise draw a level `k` (capped at
`height + 1`, incrementing the height when the draw exceeds it) and link the
new node at levels `k .. 0` after the recorded path predecessors.  In the
base-chain representation this inserts the node right after the final
level-0 predecessor; the higher-level links follow because the nodes between
a level-`j` predecessor and the level-0 insertion point all have `lvl < j`
(`descend_split` below gives the correspondence on separated chains).
The `znew_t` allocation failure branch (`ENOMEM`) is dead in the model. -/
def iova_map_add (m : IovaMap) (l vaddr len iova : Nat) : Except Nat IovaMap :=
  match iova_map_find m vaddr with
  | some _ => .error EEXIST
  | none =>
    let r := random_level l
    let k := if r > m.height then m.height + 1 else r
    let h := if r > m.height then m.height + 1 else m.height
    let s := iova_map_find_path m vaddr
    let pre := m.nodes.take (m.nodes.length - s.length)
    .ok ⟨h, pre ++ ⟨⟨vaddr, len, iova⟩, k⟩ :: s⟩

/-- `while (map->height && skip_list_next(map, &map->sentinel, map->height)
== &map->nil) map->height--;` — the height shrinks while the top level chain
is empty. -/
def shrinkHeight (ns : List MapNode) : Nat → Nat
  | 0 => 0
  | h + 1 => if ns.any (fun n => decide (h + 1 ≤ n.lvl)) then h + 1 else shrinkHeight ns h

/-- `iova_map_remove` (including `__iova_map_remove`): fail with `ENOENT`
when no entry contains `vaddr`; otherwise unlink the found node from levels
`0 .. lvl` (the per-level loop stops at the first level where the path
predecessor's successor is no longer the node, i.e. above `lvl`) and shrink
the height.  In the base-chain representation the unlinking deletes the
node. -/
def iova_map_remove (m : IovaMap) (vaddr : Nat) : Except Nat IovaMap :=
  match iova_map_find_path m vaddr with
  | [] => .error ENOENT
  | n :: rest =>
    if n.mapping.vaddr ≤ vaddr ∧ vaddr < nodeEnd n then
      let pre := m.nodes.take (m.nodes.length - (n :: rest).length)
      let ns := pre ++ rest
      .ok ⟨shrinkHeight ns m.height, ns⟩
    else .error ENOENT

/-- An item of the level-0 chain as traversed by `iova_map_clear_with`:
the embedded sentinel head, the embedded `nil` tail, or a heap-allocated
entry.  Pointer identity of the C code is captured by the constructors:
a heap entry is never the address of the embedded `nil` or sentinel. -/
inductive ClearItem where
  | sentinelN : ClearItem
  | nilN : ClearItem
  | entryN (m : IovaMapping) : ClearItem
  deriving DecidableEq, Repr

/-- The level-0 chain walked by `skip_list_for_each_safe`: after
`iova_map_init` the list reads `sentinel, (entries in order), nil`. -/
def levelZeroChain (m : IovaMap) : List ClearItem :=
  ClearItem.sentinelN :: m.nodes.map (fun n => ClearItem.entryN n.mapping) ++ [ClearItem.nilN]

/-- `iova_map_clear_with(map, fn, opaque)`: walk the level-0 chain, unlink
each node, and — unless `n == &map->nil && n == &map->sentinel` holds (note
the `&&` in the source: the test compares one pointer against two distinct
addresses, so it is never true) — invoke the callback on the node's mapping
and `free` the node.  The result is the list of items, in traversal order,
on which the callback is invoked and `free` is called. -/
def iova_map_clear_with (m : IovaMap) : List ClearItem :=
  (levelZeroChain m).filter
    (fun it => !(decide (it = ClearItem.nilN) && decide (it = ClearItem.sentinelN)))

/-- `struct vfio_iova_range`: inclusive `[start, last]` (field `end` in C;
`end` is a Lean keyword). -/
structure IovaRange where
  start : Nat
  last : Nat
  deriving DecidableEq, Repr

/-- The range scan of `iommu_get_iova`, one range at a time.  `uint64_t`
subtraction `r->end - next + 1` is taken modulo `2 ^ 64` exactly as in C
(the short-circuit guard `next > r->end` has already ensured
`next ≤ r->end`, but `r->end - next + 1` can still wrap to 0 when
`next = 0` and `r->end = UINT64_MAX`).  Returns the allocated iova and the
updated bump cursor. -/
def iommu_get_iova_loop (next len : Nat) : List IovaRange → Option (Nat × Nat)
  | [] => none
  | r :: rest =>
    if r.last < next then iommu_get_iova_loop next len rest
    else
      let nx := max next r.start
      if nx > r.last ∨ (r.last - nx + 1) % U64 < len then iommu_get_iova_loop next len rest
      else some (nx, nx + len)

/-- `iommu_get_iova(iommu, len, iova)`: reject a `len` that is not a
multiple of the page size (`ALIGNED(len, __VFN_PAGESIZE)`; the page size is
a power of two, so the mask test equals `len % pagesize == 0`), then scan
the permitted ranges with the bump cursor.  Returns the pair
`(allocated iova, new cursor)` or the errno. -/
def iommu_get_iova (pagesize next len : Nat) (ranges : List IovaRange) :
    Except Nat (Nat × Nat) :=
  if len % pagesize ≠ 0 then .error EINVAL
  else
    match iommu_get_iova_loop next len ranges with
    | some p => .ok p
    | none => .error ENOMEM

/-- The sticky allocation policy in the words of the specification
(§4.B): "Find the first range `r` with `max(next, r.start) + len − 1 ≤
r.last`; set `next = max(next, r.start) + len`; return `next − len`."
This definition follows the spec text and is compared against
`iommu_get_iova` (which is translated from the source). -/
def sticky_allocate_spec (next len : Nat) : List IovaRange → Option (Nat × Nat)
  | [] => none
  | r :: rest =>
    let nx := max next r.start
    if nx + len - 1 ≤ r.last then some (nx, nx + len)
    else sticky_allocate_spec next len rest

/-- `iommu_find_mapping`: index lookup. -/
def iommu_find_mapping (m : IovaMap) (vaddr : Nat) : Option IovaMapping :=
  iova_map_find m vaddr

/-- `iommu_vaddr_to_iova`: index lookup plus offset within the entry,
`*iova = m->iova + (vaddr - m->vaddr)`. -/
def iommu_vaddr_to_iova (m : IovaMap) (vaddr : Nat) : Option Nat :=
  match iommu_find_mapping m vaddr with
  | some mp => some (mp.iova + (vaddr - mp.vaddr))
  | none => none

/-- `iommu_add_mapping`: reject `len == 0` with `EINVAL`, then insert. -/
def iommu_add_mapping (m : IovaMap) (l vaddr len iova : Nat) : Except Nat IovaMap :=
  if len = 0 then .error EINVAL
  else iova_map_add m l vaddr len iova

/-- `iommu_remove_mapping`: remove, ignoring the result (void in C). -/
def iommu_remove_mapping (m : IovaMap) (vaddr : Nat) : IovaMap :=
  match iova_map_remove m vaddr with
  | .ok m' => m'
  | .error _ => m

/-!
## The vfio layer

`vfio_map_vaddr` / `vfio_unmap_vaddr` combine the index, the allocator and
the backend `DMA_MAP` / `DMA_UNMAP` ioctls.  The kernel side is modelled as
the list of currently installed DMA mappings plus, per call, an oracle for
the ioctl outcome (`.ok ()` or `.error errno`).  Each vfio operation also
returns the trace of backend calls it issued.
-/

/-- A backend ioctl issued by a vfio operation. -/
inductive BackendCall where
  | dmaMap (vaddr len iova : Nat) : BackendCall
  | dmaUnmap (iova len : Nat) : BackendCall
  deriving DecidableEq, Repr

/-- The `struct vfio_iommu_state` fields the claims depend on: the index,
the bump cursor and the permitted ranges. -/
structure IommuState where
  map : IovaMap
  next : Nat
  ranges : List IovaRange
  deriving DecidableEq, Repr

/-- vfio state: the iommu state plus the set (list) of DMA mappings
currently installed in the kernel, each `(vaddr, len, iova)`. -/
structure VfioState where
  iommu : IommuState
  dma : List (Nat × Nat × Nat)
  deriving DecidableEq, Repr

/-- The state after `vfio_iommu_init`: empty index, cursor at
`__VFN_IOVA_MIN`, and the single conservative range
`[0x10000, 2^39 - 1]`. -/
def vfio_init : VfioState :=
  ⟨⟨iova_map_init, IOVA_MIN, [⟨IOVA_MIN, IOVA_MAX_39BITS - 1⟩]⟩, []⟩

/-- `vfio_map_vaddr(vfio, vaddr, len, iova)`:

1. if `vfio_iommu_vaddr_to_iova` resolves `vaddr`, return that iova
   (no allocation, no ioctl);
2. otherwise allocate a sticky iova (`vfio_iommu_allocate_sticky_iova`,
   i.e. `iommu_get_iova`), failing with its errno;
3. issue `DMA_MAP` (outcome given by the oracle `dmaRes`), failing with the
   ioctl errno;
4. insert into the index (`vfio_iommu_add_mapping`); on failure the error
   is returned with no further backend call.

`lvl` is the level oracle of the insert; `pagesize` the page size. -/
def vfio_map_vaddr (pagesize : Nat) (st : VfioState) (lvl : Nat)
    (dmaRes : Except Nat Unit) (vaddr len : Nat) :
    VfioState × Except Nat Nat × List BackendCall :=
  match iommu_vaddr_to_iova st.iommu.map vaddr with
  | some iova => (st, .ok iova, [])
  | none =>
    match iommu_get_iova pagesize st.iommu.next len st.iommu.ranges with
    | .error e => (st, .error e, [])
    | .ok (iova, nx) =>
      let st1 : VfioState := ⟨⟨st.iommu.map, nx, st.iommu.ranges⟩, st.dma⟩
      match dmaRes with
      | .error e => (st1, .error e, [.dmaMap vaddr len iova])
      | .ok _ =>
        let st2 : VfioState := ⟨st1.iommu, (vaddr, len, iova) :: st1.dma⟩
        match iommu_add_mapping st2.iommu.map lvl vaddr len iova with
        | .error e => (st2, .error e, [.dmaMap vaddr len iova])
        | .ok m' =>
          (⟨⟨m', st2.iommu.next, st2.iommu.ranges⟩, st2.dma⟩, .ok iova,
            [.dmaMap vaddr len iova])

/-- `vfio_unmap_vaddr(vfio, vaddr)`: look up the mapping containing
`vaddr`; if absent return 0 leaving everything untouched; otherwise issue
`DMA_UNMAP(m->iova, m->len)` (oracle `dmaRes`), failing with its errno, and
on success erase the entry (by `m->vaddr`) from the index and the installed
mapping from the kernel state. -/
def vfio_unmap_vaddr (st : VfioState) (dmaRes : Except Nat Unit) (vaddr : Nat) :
    VfioState × Except Nat Unit × List BackendCall :=
  match iommu_find_mapping st.iommu.map vaddr with
  | none => (st, .ok (), [])
  | some mp =>
    match dmaRes with
    | .error e => (st, .error e, [.dmaUnmap mp.iova mp.len])
    | .ok _ =>
      let dma' := st.dma.eraseP
        (fun t => decide (t.2.2 = mp.iova) && decide (t.2.1 = mp.len))
      let m' := iommu_remove_mapping st.iommu.map mp.vaddr
      (⟨⟨m', st.iommu.next, st.iommu.ranges⟩, dma'⟩, .ok (),
        [.dmaUnmap mp.iova mp.len])

/-!
## NVMe helpers

`nvme_oneshot` and `nvme_cq_wait_cqes` are translated from the NVMe
compilation units.  The leaf operations they call live outside the provided
sources and are abstracted as outcome oracles (see the individual
definitions).
-/

/-- One outcome of `nvme_rq_spin(rq, &cqe)`: success (a matching CQE),
a spurious completion (return `< 0` with `errno == EAGAIN`, which
`nvme_oneshot` absorbs and retries), or a failure with another errno. -/
inductive SpinOut where
  | ok : SpinOut
  | again : SpinOut
  | fail (e : Nat) : SpinOut
  deriving DecidableEq, Repr

/-- The `while (nvme_rq_spin(rq, &cqe) < 0)` loop of `nvme_oneshot`,
threading the visible `errno`: an `EAGAIN` outcome logs and retries (errno
is left at `EAGAIN` until overwritten), any other failure exits the loop
with that errno, success exits with errno untouched.  `none` means no
decisive outcome was observed (the loop is still spinning). -/
def spinLoop : List SpinOut → Nat → Option (Option Nat × Nat)
  | [], _ => none
  | SpinOut.ok :: _, err => some (none, err)
  | SpinOut.again :: rest, _ => spinLoop rest EAGAIN
  | SpinOut.fail e :: _, _ => some (some e, e)

/-- The oracles for one `nvme_oneshot` call.  `acquireOk` is the outcome of
`nvme_rq_acquire_atomic` (its code is outside the provided sources;
modelled from the spec: acquisition from an empty pool fails with Busy).
`mapEph` is `vfio_map_vaddr_ephemeral`, `mapPrp` is `nvme_rq_map_prp` (also
outside the sources; an error outcome carries the errno the call sets),
`spin` the successive `nvme_rq_spin` outcomes, and `unmapEph` the outcome of
`vfio_unmap_ephemeral_iova` during teardown. -/
structure OneshotEnv where
  acquireOk : Bool
  hasBuf : Bool
  mapEph : Except Nat Unit
  mapPrp : Except Nat Unit
  spin : List SpinOut
  unmapEph : Except Nat Unit
  deriving Repr

/-- The `unmap:` label of `nvme_oneshot` (reached only when `buf` is
non-NULL): issue the ephemeral unmap; on its failure set `ret = -1` and
restore `errno = savederrno`. -/
def oneshot_unmap (unmapEph : Except Nat Unit) (ret : Int) (saved errno : Nat) :
    Int × Nat :=
  match unmapEph with
  | .ok _ => (ret, errno)
  | .error _ => (-1, saved)

/-- `nvme_oneshot(ctrl, sq, sqe, buf, len, cqe_copy)` (and hence
`nvme_admin`): returns `(ret, errno)` as visible to the caller, or `none`
when the spin loop never observes a decisive outcome (the call has not
returned).  `errno0` is the thread's errno on entry.

Control flow translated from the source: acquire a request slot; when a
buffer is supplied, map it ephemerally and build the PRP fields (on PRP
failure save errno and jump to the unmap); execute and spin for the
completion (absorbing `EAGAIN`, saving the errno of a real failure); then,
when a buffer was supplied, unmap the ephemeral iova — on unmap failure
`ret = -1; errno = savederrno`. -/
def nvme_oneshot (env : OneshotEnv) (errno0 : Nat) : Option (Int × Nat) :=
  if ¬env.acquireOk then some (-1, EBUSY)
  else if env.hasBuf then
    match env.mapEph with
    | .error e => some (-1, e)
    | .ok _ =>
      match env.mapPrp with
      | .error e => some (oneshot_unmap env.unmapEph (-1) e e)
      | .ok _ =>
        match spinLoop env.spin errno0 with
        | none => none
        | some (some e, err) => some (oneshot_unmap env.unmapEph (-1) e err)
        | some (none, err) => some (oneshot_unmap env.unmapEph 0 0 err)
  else
    match spinLoop env.spin errno0 with
    | none => none
    | some (some _, err) => some (-1, err)
    | some (none, err) => some (0, err)

/-- A completion queue entry; the claims only need its identity, so it is
an opaque payload. -/
abbrev Cqe : Type := Nat

/-- One `nvme_cq_get_cqe(cq)` poll outcome: `none` when the phase bit does
not match (queue empty), `some c` when a CQE is consumed.  The function's
code is outside the provided sources; modelled from the spec (`poll_one`).
A run of `nvme_cq_get_cqes` / `nvme_cq_wait_cqes` is driven by the finite
observed prefix of poll outcomes. -/
def PollTrace : Type := List (Option Cqe)

/-- `nvme_cq_get_cqes(cq, cqes, n)`: `do { cqe = nvme_cq_get_cqe(cq); if
(!cqe) continue; n--; } while (n > 0);` — poll until `n` CQEs have been
consumed.  Returns the collected CQEs (in order) when the loop exits within
the observed polls, `none` when it is still polling (the loop has no other
exit). -/
def nvme_cq_get_cqes : PollTrace → Int → List Cqe → Option (List Cqe)
  | [], _, _ => none
  | o :: rest, n, acc =>
    match o with
    | none => if n > 0 then nvme_cq_get_cqes rest n acc else some acc
    | some c => if n - 1 > 0 then nvme_cq_get_cqes rest (n - 1) (acc ++ [c]) else some (acc ++ [c])

/-- The timed polling loop of `nvme_cq_wait_cqes` (the `timeout_ns != 0`
path): the loop condition rechecks `n > 0 && get_ticks() < timeout` after
every poll (also after an empty poll — `continue` in a do-while jumps to
the condition).  Ticks are modelled as the number of polls performed.
Returns `(remaining n, collected)` when the loop exits within the observed
polls. -/
def nvme_cq_wait_loop : PollTrace → Int → Nat → Nat → List Cqe →
    Option (Int × List Cqe)
  | [], _, _, _, _ => none
  | o :: rest, n, tick, tmo, acc =>
    match o with
    | none =>
      if n > 0 ∧ tick + 1 < tmo then nvme_cq_wait_loop rest n (tick + 1) tmo acc
      else some (n, acc)
    | some c =>
      if n - 1 > 0 ∧ tick + 1 < tmo then nvme_cq_wait_loop rest (n - 1) (tick + 1) tmo (acc ++ [c])
      else some (n - 1, acc ++ [c])

/-- The result of `nvme_cq_wait_cqes` as visible to the caller: the return
value (the number of CQEs still outstanding), the collected CQEs, and
whether `errno` was set to `ETIMEDOUT`. -/
structure WaitResult where
  ret : Int
  cqes : List Cqe
  timedOut : Bool
  deriving DecidableEq, Repr

/-- `nvme_cq_wait_cqes(cq, cqes, n, timeout_ns)`:

```
if (!timeout_ns) { nvme_cq_get_cqes(cq, cqes, n); return 0; }
timeout = get_ticks() + (timeout_ns*1000) * (__vfn_ticks_freq / 1000000ULL);
do { ... } while (n > 0 && get_ticks() < timeout);
if (n > 0) errno = ETIMEDOUT;
return n;
```

`tmo` abstracts the computed tick budget `(timeout_ns*1000) *
(freq / 1000000)`.  `none` means the call has not returned within the
observed polls. -/
def nvme_cq_wait_cqes (trace : PollTrace) (n : Int) (timeout_ns tmo : Nat) :
    Option WaitResult :=
  if timeout_ns = 0 then
    match nvme_cq_get_cqes trace n [] with
    | none => none
    | some acc => some ⟨0, acc, false⟩
  else
    match nvme_cq_wait_loop trace n 0 tmo [] with
    | none => none
    | some (n', acc) => some ⟨n', acc, n' > 0⟩

/-!
## CRC-64

`nvme_crc64(crc, buffer, len)` folds the bytes of `buffer` through the
lookup table and finishes by XOR with all-ones.  The C `for (i = 0; i <
len; i++)` loop over `buffer[i]` is modelled as structural recursion over
the byte list; the table (`crc64table.h`, generated data outside the
provided sources) is a parameter. -/
def nvme_crc64_loop (table : Nat → Nat) (crc : Nat) : List Nat → Nat
  | [] => crc
  | b :: rest => nvme_crc64_loop table ((crc >>> 8) ^^^ table ((crc &&& 0xff) ^^^ b)) rest

/-- `nvme_crc64`: the loop, then `crc ^ (uint64_t)~0`. -/
def nvme_crc64 (table : Nat → Nat) (crc : Nat) (buffer : List Nat) : Nat :=
  nvme_crc64_loop table crc buffer ^^^ (U64 - 1)

/-- The fold in the words of the specification (§6 and claim C8): the
left-to-right fold of `crc = (crc >> 8) ^ table[(crc ^ byte) & 0xff]`,
seeded with `crc`, finalized by XOR with all-ones (`2^64 − 1`). -/
def crc64_fold_spec (table : Nat → Nat) (crc : Nat) (buffer : List Nat) : Nat :=
  (buffer.foldl (fun c b => (c >>> 8) ^^^ table ((c ^^^ b) &&& 0xff)) crc) ^^^ (2 ^ 64 - 1)

/-!
## The index invariant and the correctness of the descent

The data-model invariant (spec §3): entries are ordered by `vaddr` and
non-overlapping.  On the base chain this is pairwise separation: each
node ends at or before the next begins.
-/

/-- Separation of two nodes: `a` ends at or before `b` begins. -/
def NodeLE (a b : MapNode) : Prop := nodeEnd a ≤ b.mapping.vaddr

instance : DecidableRel NodeLE := fun a b =>
  inferInstanceAs (Decidable (nodeEnd a ≤ b.mapping.vaddr))

/-- The index invariant: the base chain is pairwise separated (hence
sorted by `vaddr` and non-overlapping). -/
abbrev MapInv (m : IovaMap) : Prop := m.nodes.Pairwise NodeLE

/-- The walk predicate of `__iova_map_find_path`, as a `Bool`. -/
def endLE (q : Nat) (n : MapNode) : Bool := decide (nodeEnd n ≤ q)

theorem seekOk_eq_false (q k : Nat) :
    ∀ ns : List MapNode, (∀ n ∈ ns, q < nodeEnd n) → seekOk q k ns = false := by
  intro ns
  induction ns with
  | nil => intro _; rfl
  | cons n rest ih =>
    intro h
    unfold seekOk
    by_cases hk : k ≤ n.lvl
    · simp only [if_pos hk, decide_eq_false_iff_not]
      exact Nat.not_le_of_lt (h n (List.mem_cons_self n rest))
    · simp only [if_neg hk]
      exact ih fun x hx => h x (List.mem_cons_of_mem n hx)

theorem walkLevel_id (q k : Nat) :
    ∀ ns : List MapNode, (∀ n ∈ ns, q < nodeEnd n) → walkLevel q k ns = ns := by
  intro ns
  induction ns with
  | nil => intro _; rfl
  | cons n rest _ =>
    intro h
    unfold walkLevel
    by_cases hk : k ≤ n.lvl
    · have hn : ¬ nodeEnd n ≤ q := Nat.not_le_of_lt (h n (List.mem_cons_self n rest))
      simp only [if_pos hk, if_neg hn]
    · have hs : seekOk q k rest = false :=
        seekOk_eq_false q k rest fun x hx => h x (List.mem_cons_of_mem n hx)
      simp only [if_neg hk, hs, Bool.false_eq_true, if_neg, ite_false]

theorem walkLevel_split (q k : Nat) :
    ∀ P S : List MapNode, (∀ n ∈ P, nodeEnd n ≤ q) → (∀ n ∈ S, q < nodeEnd n) →
      ∃ P₂, P₂ <:+ P ∧ walkLevel q k (P ++ S) = P₂ ++ S := by
  intro P
  induction P with
  | nil =>
    intro S _ hS
    exact ⟨[], List.suffix_refl [], by simpa using walkLevel_id q k S hS⟩
  | cons n P' ih =>
    intro S hP hS
    have hn : nodeEnd n ≤ q := hP n (List.mem_cons_self n P')
    have hP' : ∀ x ∈ P', nodeEnd x ≤ q := fun x hx => hP x (List.mem_cons_of_mem n hx)
    unfold walkLevel
    by_cases hk : k ≤ n.lvl
    · simp only [List.cons_append, if_pos hk, if_pos hn]
      obtain ⟨P₂, hsuf, heq⟩ := ih S hP' hS
      exact ⟨P₂, hsuf.trans (List.suffix_cons n P'), heq⟩
    · simp only [List.cons_append, if_neg hk]
      by_cases hsk : seekOk q k (P' ++ S) = true
      · simp only [hsk, if_pos]
        obtain ⟨P₂, hsuf, heq⟩ := ih S hP' hS
        exact ⟨P₂, hsuf.trans (List.suffix_cons n P'), heq⟩
      · simp only [hsk, if_neg, ite_false]
        exact ⟨n :: P', List.suffix_refl _, by simp⟩

theorem walkLevel_zero (q : Nat) :
    ∀ P S : List MapNode, (∀ n ∈ P, nodeEnd n ≤ q) → (∀ n ∈ S, q < nodeEnd n) →
      walkLevel q 0 (P ++ S) = S := by
  intro P
  induction P with
  | nil => intro S _ hS; simpa using walkLevel_id q 0 S hS
  | cons n P' ih =>
    intro S hP hS
    have hn : nodeEnd n ≤ q := hP n (List.mem_cons_self n P')
    unfold walkLevel
    simp only [List.cons_append, if_pos (Nat.zero_le n.lvl), if_pos hn]
    exact ih S (fun x hx => hP x (List.mem_cons_of_mem n hx)) hS

theorem descend_split (q : Nat) :
    ∀ (k : Nat) (P S : List MapNode),
      (∀ n ∈ P, nodeEnd n ≤ q) → (∀ n ∈ S, q < nodeEnd n) →
      descend q (P ++ S) k = S := by
  intro k
  induction k with
  | zero => intro P S hP hS; exact walkLevel_zero q P S hP hS
  | succ k ih =>
    intro P S hP hS
    unfold descend
    obtain ⟨P₂, hsuf, heq⟩ := walkLevel_split q (k + 1) P S hP hS
    rw [heq]
    exact ih P₂ S (fun x hx => hP x (hsuf.subset hx)) hS

theorem dropWhile_all_gt (q : Nat) (ns : List MapNode) (h : ns.Pairwise NodeLE) :
    ∀ n ∈ ns.dropWhile (endLE q), q < nodeEnd n := by
  intro n hn
  have hsuf : ns.dropWhile (endLE q) <:+ ns := List.dropWhile_suffix (endLE q)
  match hD : ns.dropWhile (endLE q) with
  | [] => rw [hD] at hn; cases hn
  | s :: t =>
    have hps : endLE q s = false := by
      have := List.head?_dropWhile_not (endLE q) ns
      rw [hD] at this; simpa using this
    have hqs : q < nodeEnd s := by
      have := of_decide_eq_false hps
      omega
    rw [hD] at hn
    rcases List.mem_cons.mp hn with rfl | hmem
    · exact hqs
    · have hpw : (s :: t).Pairwise NodeLE := by
        rw [← hD]; exact h.sublist (List.dropWhile_suffix (endLE q)).sublist
      have hrel : NodeLE s n := (List.pairwise_cons.mp hpw).1 n hmem
      have : nodeEnd s ≤ n.mapping.vaddr := hrel
      have : n.mapping.vaddr ≤ nodeEnd n := Nat.le_add_right _ _
      unfold nodeEnd at *
      omega

theorem takeWhile_all_le (q : Nat) (ns : List MapNode) :
    ∀ n ∈ ns.takeWhile (endLE q), nodeEnd n ≤ q := by
  intro n hn
  have := List.mem_takeWhile_imp hn
  exact of_decide_eq_true this

/-- Under the invariant, the multi-level descent of
`__iova_map_find_path` lands exactly where the plain level-0 scan would:
right before the first node whose end lies beyond the query. -/
theorem find_path_eq (m : IovaMap) (q : Nat) (h : MapInv m) :
    iova_map_find_path m q = m.nodes.dropWhile (endLE q) := by
  unfold iova_map_find_path
  conv_lhs => rw [← List.takeWhile_append_dropWhile (endLE q) m.nodes]
  exact descend_split q m.height _ _ (takeWhile_all_le q m.nodes) (dropWhile_all_gt q m.nodes h)

/-- Characterization of the lookup under the invariant: `find` returns
exactly the (unique) entry containing the query. -/
theorem iova_map_find_some_iff (m : IovaMap) (q : Nat) (h : MapInv m) (e : IovaMapping) :
    iova_map_find m q = some e ↔
      ∃ n ∈ m.nodes, n.mapping = e ∧ e.vaddr ≤ q ∧ q < e.vaddr + e.len := by
  unfold iova_map_find
  rw [find_path_eq m q h]
  constructor
  · intro hfind
    match hD : m.nodes.dropWhile (endLE q) with
    | [] => rw [hD] at hfind; cases hfind
    | s :: t =>
      rw [hD] at hfind
      have hfind' : (if s.mapping.vaddr ≤ q ∧ q < nodeEnd s then some s.mapping else none) = some e := hfind
      by_cases hc : s.mapping.vaddr ≤ q ∧ q < nodeEnd s
      · rw [if_pos hc] at hfind'
        have hmem : s ∈ m.nodes := (List.dropWhile_suffix (endLE q)).subset (by rw [hD]; exact List.mem_cons_self s t)
        injection hfind' with he
        refine ⟨s, hmem, he, ?_, ?_⟩
        · rw [← he]; exact hc.1
        · rw [← he]; exact hc.2
      · rw [if_neg hc] at hfind'; cases hfind'
  · rintro ⟨n, hmem, rfl, hle, hlt⟩
    have hql : q < nodeEnd n := hlt
    have hnotin : n ∉ m.nodes.takeWhile (endLE q) := by
      intro hmemT
      have := takeWhile_all_le q m.nodes n hmemT
      unfold nodeEnd at this
      omega
    have hsplit : m.nodes.takeWhile (endLE q) ++ m.nodes.dropWhile (endLE q) = m.nodes :=
      List.takeWhile_append_dropWhile (endLE q) m.nodes
    have hmemD : n ∈ m.nodes.dropWhile (endLE q) := by
      have := hmem
      rw [← hsplit] at this
      rcases List.mem_append.mp this with h1 | h2
      · exact absurd h1 hnotin
      · exact h2
    match hD : m.nodes.dropWhile (endLE q) with
    | [] => rw [hD] at hmemD; cases hmemD
    | s :: t =>
      rw [hD] at hmemD
      have hs_gt : q < nodeEnd s := by
        have := dropWhile_all_gt q m.nodes h s (by rw [hD]; exact List.mem_cons_self s t)
        exact this
      have hsn : s = n := by
        rcases List.mem_cons.mp hmemD with rfl | hmem'
        · rfl
        · exfalso
          have hpw : (s :: t).Pairwise NodeLE := by
            rw [← hD]; exact h.sublist (List.dropWhile_suffix (endLE q)).sublist
          have hrel : NodeLE s n := (List.pairwise_cons.mp hpw).1 n hmem'
          have h1 : nodeEnd s ≤ n.mapping.vaddr := hrel
          have h2 : n.mapping.vaddr ≤ q := hle
          omega
      subst hsn
      show (if s.mapping.vaddr ≤ q ∧ q < nodeEnd s then some s.mapping else none) = some s.mapping
      rw [if_pos ⟨hle, hlt⟩]

/-- With the invariant, a failed lookup means no entry contains the
query. -/
theorem iova_map_find_none_iff (m : IovaMap) (q : Nat) (h : MapInv m) :
    iova_map_find m q = none ↔
      ∀ n ∈ m.nodes, ¬(n.mapping.vaddr ≤ q ∧ q < nodeEnd n) := by
  constructor
  · intro hnone n hmem hc
    have : iova_map_find m q = some n.mapping :=
      (iova_map_find_some_iff m q h n.mapping).mpr ⟨n, hmem, rfl, hc.1, hc.2⟩
    rw [hnone] at this; cases this
  · intro hno
    match hf : iova_map_find m q with
    | none => rfl
    | some e =>
      obtain ⟨n, hmem, he, hle, hlt⟩ := (iova_map_find_some_iff m q h e).mp hf
      exfalso
      exact hno n hmem (by rw [he]; exact ⟨hle, by unfold nodeEnd; rw [he]; exact hlt⟩)

/-!
## Structure of insert and removal
-/

theorem walkLevel_suffix (q k : Nat) :
    ∀ ns : List MapNode, walkLevel q k ns <:+ ns := by
  intro ns
  induction ns with
  | nil => exact List.suffix_refl []
  | cons n rest ih =>
    unfold walkLevel
    by_cases hk : k ≤ n.lvl
    · by_cases hn : nodeEnd n ≤ q
      · simpa [if_pos hk, if_pos hn] using ih.trans (List.suffix_cons n rest)
      · simp only [if_pos hk, if_neg hn]
        exact List.suffix_refl _
    · by_cases hs : seekOk q k rest = true
      · simpa [if_neg hk, hs] using ih.trans (List.suffix_cons n rest)
      · simp only [if_neg hk, hs, Bool.false_eq_true, ite_false]
        exact List.suffix_refl _

theorem descend_suffix (q : Nat) :
    ∀ (k : Nat) (ns : List MapNode), descend q ns k <:+ ns := by
  intro k
  induction k with
  | zero => intro ns; exact walkLevel_suffix q 0 ns
  | succ k ih => intro ns; exact (ih _).trans (walkLevel_suffix q (k + 1) ns)

theorem find_path_suffix (m : IovaMap) (q : Nat) :
    iova_map_find_path m q <:+ m.nodes :=
  descend_suffix q m.height m.nodes

theorem take_of_append_eq {T D ns : List MapNode} (h : T ++ D = ns) :
    ns.take (ns.length - D.length) = T := by
  subst h
  rw [List.length_append, Nat.add_sub_cancel]
  exact List.take_left T D

theorem suffix_take_append {s ns : List MapNode} (h : s <:+ ns) :
    ns.take (ns.length - s.length) ++ s = ns := by
  obtain ⟨t, rfl⟩ := h
  rw [take_of_append_eq rfl]

/-- Unique containment: under the invariant at most one entry contains a
given address. -/
theorem container_unique (m : IovaMap) (h : MapInv m) {a b : MapNode} {v : Nat}
    (ha : a ∈ m.nodes) (hb : b ∈ m.nodes)
    (hca : a.mapping.vaddr ≤ v ∧ v < nodeEnd a)
    (hcb : b.mapping.vaddr ≤ v ∧ v < nodeEnd b) : a = b := by
  obtain ⟨i, hi⟩ := List.mem_iff_get.mp ha
  obtain ⟨j, hj⟩ := List.mem_iff_get.mp hb
  have hpw := List.pairwise_iff_get.mp h
  rcases Nat.lt_trichotomy i.val j.val with hij | hij | hij
  · exfalso
    have hr : NodeLE a b := by
      have := hpw ⟨i.val, i.isLt⟩ ⟨j.val, j.isLt⟩ hij
      rwa [hi, hj] at this
    have h1 : nodeEnd a ≤ b.mapping.vaddr := hr
    omega
  · rw [← hi, ← hj]
    congr 1
    exact Fin.ext hij
  · exfalso
    have hr : NodeLE b a := by
      have := hpw ⟨j.val, j.isLt⟩ ⟨i.val, i.isLt⟩ hij
      rwa [hi, hj] at this
    have h1 : nodeEnd b ≤ a.mapping.vaddr := hr
    omega

/-- The head of the level-0 scan is exactly the entry containing the
query, when one exists. -/
theorem dropWhile_head_container (m : IovaMap) (h : MapInv m) {n : MapNode} {q : Nat}
    (hn : n ∈ m.nodes) (hle : n.mapping.vaddr ≤ q) (hlt : q < nodeEnd n) :
    ∃ rest, m.nodes.dropWhile (endLE q) = n :: rest := by
  have hnotin : n ∉ m.nodes.takeWhile (endLE q) := by
    intro hmemT
    have := takeWhile_all_le q m.nodes n hmemT
    omega
  have hsplit : m.nodes.takeWhile (endLE q) ++ m.nodes.dropWhile (endLE q) = m.nodes :=
    List.takeWhile_append_dropWhile (endLE q) m.nodes
  have hmemD : n ∈ m.nodes.dropWhile (endLE q) := by
    have hx := hn
    rw [← hsplit] at hx
    rcases List.mem_append.mp hx with h1 | h2
    · exact absurd h1 hnotin
    · exact h2
  match hD : m.nodes.dropWhile (endLE q) with
  | [] => rw [hD] at hmemD; cases hmemD
  | s :: t =>
    rw [hD] at hmemD
    rcases List.mem_cons.mp hmemD with rfl | hmem'
    · exact ⟨t, rfl⟩
    · exfalso
      have hpw : (s :: t).Pairwise NodeLE := by
        rw [← hD]; exact h.sublist (List.dropWhile_suffix (endLE q)).sublist
      have hrel : NodeLE s n := (List.pairwise_cons.mp hpw).1 n hmem'
      have h1 : nodeEnd s ≤ n.mapping.vaddr := hrel
      have hs_gt : q < nodeEnd s :=
        dropWhile_all_gt q m.nodes h s (by rw [hD]; exact List.mem_cons_self s t)
      omega

/-- `iova_map_add` on a fresh address: the explicit result.  The node is
inserted right after the last entry ending at or before `vaddr`. -/
theorem iova_map_add_eq (m : IovaMap) (l v len iova : Nat) (h : MapInv m)
    (hnone : iova_map_find m v = none) :
    iova_map_add m l v len iova =
      .ok ⟨if random_level l > m.height then m.height + 1 else m.height,
           m.nodes.takeWhile (endLE v) ++
             ⟨⟨v, len, iova⟩, if random_level l > m.height then m.height + 1 else random_level l⟩ ::
               m.nodes.dropWhile (endLE v)⟩ := by
  unfold iova_map_add
  rw [hnone]
  have hpath : iova_map_find_path m v = m.nodes.dropWhile (endLE v) := find_path_eq m v h
  rw [hpath]
  have hpre : m.nodes.take (m.nodes.length - (m.nodes.dropWhile (endLE v)).length) =
      m.nodes.takeWhile (endLE v) :=
    take_of_append_eq (List.takeWhile_append_dropWhile (endLE v) m.nodes)
  dsimp only
  rw [hpre]

/-- Lookup after a fresh insert finds the new entry (no invariant needed on
the result: every node before the insertion point ends at or before `v`,
every node after it begins beyond `v`). -/
theorem find_after_add (m : IovaMap) (l v len iova : Nat) (h : MapInv m)
    (hnone : iova_map_find m v = none) (hlen : 0 < len) (m₁ : IovaMap)
    (hadd : iova_map_add m l v len iova = .ok m₁) :
    iova_map_find m₁ v = some ⟨v, len, iova⟩ := by
  rw [iova_map_add_eq m l v len iova h hnone] at hadd
  injection hadd with hm₁
  subst hm₁
  unfold iova_map_find iova_map_find_path
  have hsplit : descend v
      (m.nodes.takeWhile (endLE v) ++
        ⟨⟨v, len, iova⟩, if random_level l > m.height then m.height + 1 else random_level l⟩ ::
          m.nodes.dropWhile (endLE v))
      (if random_level l > m.height then m.height + 1 else m.height) =
      ⟨⟨v, len, iova⟩, if random_level l > m.height then m.height + 1 else random_level l⟩ ::
        m.nodes.dropWhile (endLE v) := by
    apply descend_split
    · exact takeWhile_all_le v m.nodes
    · intro x hx
      rcases List.mem_cons.mp hx with rfl | hmem
      · show v < v + len
        omega
      · exact dropWhile_all_gt v m.nodes h x hmem
  rw [hsplit]
  dsimp only
  rw [if_pos ⟨Nat.le_refl v, show v < v + len by omega⟩]

/-- Removal right after a fresh insert restores the original chain. -/
theorem remove_after_add (m : IovaMap) (l v len iova : Nat) (h : MapInv m)
    (hnone : iova_map_find m v = none) (hlen : 0 < len) (m₁ : IovaMap)
    (hadd : iova_map_add m l v len iova = .ok m₁) :
    ∃ m₂, iova_map_remove m₁ v = .ok m₂ ∧ m₂.nodes = m.nodes := by
  rw [iova_map_add_eq m l v len iova h hnone] at hadd
  injection hadd with hm₁
  subst hm₁
  unfold iova_map_remove iova_map_find_path
  have hsplit : descend v
      (m.nodes.takeWhile (endLE v) ++
        ⟨⟨v, len, iova⟩, if random_level l > m.height then m.height + 1 else random_level l⟩ ::
          m.nodes.dropWhile (endLE v))
      (if random_level l > m.height then m.height + 1 else m.height) =
      ⟨⟨v, len, iova⟩, if random_level l > m.height then m.height + 1 else random_level l⟩ ::
        m.nodes.dropWhile (endLE v) := by
    apply descend_split
    · exact takeWhile_all_le v m.nodes
    · intro x hx
      rcases List.mem_cons.mp hx with rfl | hmem
      · show v < v + len
        omega
      · exact dropWhile_all_gt v m.nodes h x hmem
  rw [hsplit]
  dsimp only
  rw [if_pos ⟨Nat.le_refl v, show v < v + len by omega⟩]
  refine ⟨_, rfl, ?_⟩
  have hpre := take_of_append_eq
    (rfl : m.nodes.takeWhile (endLE v) ++
      (⟨⟨v, len, iova⟩, if random_level l > m.height then m.height + 1 else random_level l⟩ ::
        m.nodes.dropWhile (endLE v)) = _)
  rw [hpre]
  exact List.takeWhile_append_dropWhile (endLE v) m.nodes


/-- Insertion preserves the invariant when the new region is disjoint from
every present entry. -/
theorem iova_map_add_inv (m : IovaMap) (l v len iova : Nat) (h : MapInv m)
    (hnone : iova_map_find m v = none)
    (hdisj : ∀ n ∈ m.nodes, v + len ≤ n.mapping.vaddr ∨ nodeEnd n ≤ v)
    (m₁ : IovaMap) (hadd : iova_map_add m l v len iova = .ok m₁) : MapInv m₁ := by
  rw [iova_map_add_eq m l v len iova h hnone] at hadd
  injection hadd with hm₁
  subst hm₁
  show List.Pairwise NodeLE _
  have hTD : m.nodes.takeWhile (endLE v) ++ m.nodes.dropWhile (endLE v) = m.nodes :=
    List.takeWhile_append_dropWhile (endLE v) m.nodes
  have hbase : (m.nodes.takeWhile (endLE v) ++ m.nodes.dropWhile (endLE v)).Pairwise NodeLE := by
    rw [hTD]; exact h
  obtain ⟨hT, hD, hcross⟩ := List.pairwise_append.mp hbase
  rw [List.pairwise_append]
  refine ⟨hT, ?_, ?_⟩
  · rw [List.pairwise_cons]
    refine ⟨?_, hD⟩
    intro x hx
    have hxm : x ∈ m.nodes := (List.dropWhile_suffix (endLE v)).subset hx
    rcases hdisj x hxm with h1 | h2
    · exact h1
    · exfalso
      have := dropWhile_all_gt v m.nodes h x hx
      omega
  · intro a ha b hb
    rcases List.mem_cons.mp hb with rfl | hbD
    · show nodeEnd a ≤ v
      exact takeWhile_all_le v m.nodes a ha
    · exact hcross a ha b hbD

/-- The shape of a successful removal: one node is deleted from the base
chain. -/
theorem iova_map_remove_structure (m : IovaMap) (v : Nat) (m₂ : IovaMap)
    (hrem : iova_map_remove m v = .ok m₂) :
    ∃ pre n rest, m.nodes = pre ++ n :: rest ∧ m₂.nodes = pre ++ rest := by
  unfold iova_map_remove at hrem
  match hp : iova_map_find_path m v with
  | [] => rw [hp] at hrem; cases hrem
  | n :: rest =>
    rw [hp] at hrem
    dsimp only at hrem
    by_cases hc : n.mapping.vaddr ≤ v ∧ v < nodeEnd n
    · rw [if_pos hc] at hrem
      injection hrem with hm₂
      have hsuf : n :: rest <:+ m.nodes := by rw [← hp]; exact find_path_suffix m v
      have htake := suffix_take_append hsuf
      refine ⟨m.nodes.take (m.nodes.length - (n :: rest).length), n, rest, htake.symm, ?_⟩
      rw [← hm₂]
    · rw [if_neg hc] at hrem; cases hrem

/-- Removal preserves the invariant. -/
theorem iova_map_remove_inv (m : IovaMap) (v : Nat) (h : MapInv m) (m₂ : IovaMap)
    (hrem : iova_map_remove m v = .ok m₂) : MapInv m₂ := by
  obtain ⟨pre, n, rest, hm, hm₂⟩ := iova_map_remove_structure m v m₂ hrem
  show List.Pairwise NodeLE _
  rw [hm₂]
  have hsub : List.Sublist (pre ++ rest) (pre ++ n :: rest) :=
    (List.sublist_cons_self n rest).append_left pre
  have h' : List.Pairwise NodeLE (pre ++ n :: rest) := by rw [← hm]; exact h
  exact h'.sublist hsub

/-- Removing the entry containing `q`: the removal succeeds, keeps the
invariant, and afterwards no address inside the removed entry resolves. -/
theorem remove_container_spec (m : IovaMap) (h : MapInv m) {n : MapNode} {q : Nat}
    (hn : n ∈ m.nodes) (hle : n.mapping.vaddr ≤ q) (hlt : q < nodeEnd n) :
    ∃ m₂, iova_map_remove m q = .ok m₂ ∧ MapInv m₂ ∧
      ∀ v', n.mapping.vaddr ≤ v' → v' < nodeEnd n → iova_map_find m₂ v' = none := by
  obtain ⟨rest, hD⟩ := dropWhile_head_container m h hn hle hlt
  have hpath : iova_map_find_path m q = n :: rest := by
    rw [find_path_eq m q h, hD]
  have hTD : m.nodes.takeWhile (endLE q) ++ m.nodes.dropWhile (endLE q) = m.nodes :=
    List.takeWhile_append_dropWhile (endLE q) m.nodes
  have hnodes : m.nodes.takeWhile (endLE q) ++ n :: rest = m.nodes := by rw [← hD]; exact hTD
  have hpre : m.nodes.take (m.nodes.length - (n :: rest).length) = m.nodes.takeWhile (endLE q) :=
    take_of_append_eq hnodes
  have hpw2 : (m.nodes.takeWhile (endLE q) ++ rest).Pairwise NodeLE := by
    have hsub : List.Sublist (m.nodes.takeWhile (endLE q) ++ rest)
        (m.nodes.takeWhile (endLE q) ++ n :: rest) :=
      (List.sublist_cons_self n rest).append_left _
    have hbase : (m.nodes.takeWhile (endLE q) ++ n :: rest).Pairwise NodeLE := by
      rw [hnodes]; exact h
    exact hbase.sublist hsub
  unfold iova_map_remove
  rw [hpath]
  dsimp only
  rw [if_pos ⟨hle, hlt⟩, hpre]
  refine ⟨_, rfl, hpw2, ?_⟩
  intro v' hv'le hv'lt
  have hinv₂ : MapInv ⟨shrinkHeight (m.nodes.takeWhile (endLE q) ++ rest) m.height,
      m.nodes.takeWhile (endLE q) ++ rest⟩ := hpw2
  rw [iova_map_find_none_iff _ v' hinv₂]
  intro x hx hcx
  have hxm : x ∈ m.nodes := by
    rw [← hnodes]
    rcases List.mem_append.mp hx with h1 | h2
    · exact List.mem_append.mpr (Or.inl h1)
    · exact List.mem_append.mpr (Or.inr (List.mem_cons_of_mem n h2))
  have hcn : n.mapping.vaddr ≤ v' ∧ v' < nodeEnd n := ⟨hv'le, hv'lt⟩
  have hxn : x = n := container_unique m h hxm hn hcx hcn
  subst hxn
  rcases List.mem_append.mp hx with h1 | h2
  · have := takeWhile_all_le q m.nodes x h1
    omega
  · have hpw : (x :: rest).Pairwise NodeLE := by
      rw [← hD]
      exact h.sublist (List.dropWhile_suffix (endLE q)).sublist
    have hrel : NodeLE x x := (List.pairwise_cons.mp hpw).1 x h2
    have hxx : nodeEnd x ≤ x.mapping.vaddr := hrel
    unfold nodeEnd at *
    omega

/-!
## Reachable context states
-/

theorem vaddr_to_iova_none_iff (m : IovaMap) (v : Nat) :
    iommu_vaddr_to_iova m v = none ↔ iommu_find_mapping m v = none := by
  unfold iommu_vaddr_to_iova
  cases iommu_find_mapping m v <;> simp

/-- `vfio_map_vaddr` preserves the index invariant, provided the mapped
region is disjoint from every present entry whenever it is actually
inserted (i.e. whenever `vaddr` does not already resolve). -/
theorem vfio_map_vaddr_inv (ps : Nat) (st : VfioState) (lvl : Nat)
    (d : Except Nat Unit) (v len : Nat) (h : MapInv st.iommu.map)
    (hdisj : iommu_find_mapping st.iommu.map v = none →
      ∀ n ∈ st.iommu.map.nodes, v + len ≤ n.mapping.vaddr ∨ nodeEnd n ≤ v) :
    MapInv (vfio_map_vaddr ps st lvl d v len).1.iommu.map := by
  unfold vfio_map_vaddr
  cases htr : iommu_vaddr_to_iova st.iommu.map v with
  | some iova => exact h
  | none =>
    have hfind : iommu_find_mapping st.iommu.map v = none :=
      (vaddr_to_iova_none_iff st.iommu.map v).mp htr
    cases halloc : iommu_get_iova ps st.iommu.next len st.iommu.ranges with
    | error e => exact h
    | ok p =>
      obtain ⟨iova, nx⟩ := p
      cases d with
      | error e => exact h
      | ok _ =>
        dsimp only
        cases hadd : iommu_add_mapping st.iommu.map lvl v len iova with
        | error e => exact h
        | ok m' =>
          show MapInv m'
          unfold iommu_add_mapping at hadd
          by_cases hlen : len = 0
          · rw [if_pos hlen] at hadd; cases hadd
          · rw [if_neg hlen] at hadd
            exact iova_map_add_inv st.iommu.map lvl v len iova h hfind (hdisj hfind) m' hadd

/-- `vfio_unmap_vaddr` preserves the index invariant. -/
theorem vfio_unmap_vaddr_inv (st : VfioState) (d : Except Nat Unit) (v : Nat)
    (h : MapInv st.iommu.map) :
    MapInv (vfio_unmap_vaddr st d v).1.iommu.map := by
  unfold vfio_unmap_vaddr
  cases hf : iommu_find_mapping st.iommu.map v with
  | none => exact h
  | some mp =>
    cases d with
    | error e => exact h
    | ok _ =>
      dsimp only
      show MapInv (iommu_remove_mapping st.iommu.map mp.vaddr)
      unfold iommu_remove_mapping
      cases hrem : iova_map_remove st.iommu.map mp.vaddr with
      | error e => exact h
      | ok m₂ => exact iova_map_remove_inv st.iommu.map mp.vaddr h m₂ hrem

/-- The context states reachable by `map`/`unmap` sequences from the
initial state, restricted (as the data model requires) to `map` calls whose
region is disjoint from every still-mapped entry whenever the call actually
inserts.  `ps` is the page size; the oracles (`lvl`, ioctl outcomes) are
arbitrary. -/
inductive VfioReach (ps : Nat) : VfioState → Prop where
  | init : VfioReach ps vfio_init
  | map (st : VfioState) (lvl : Nat) (dmaRes : Except Nat Unit) (vaddr len : Nat)
      (h : VfioReach ps st)
      (hdisj : iommu_find_mapping st.iommu.map vaddr = none →
        ∀ n ∈ st.iommu.map.nodes, vaddr + len ≤ n.mapping.vaddr ∨ nodeEnd n ≤ vaddr) :
      VfioReach ps (vfio_map_vaddr ps st lvl dmaRes vaddr len).1
  | unmap (st : VfioState) (dmaRes : Except Nat Unit) (vaddr : Nat)
      (h : VfioReach ps st) :
      VfioReach ps (vfio_unmap_vaddr st dmaRes vaddr).1

/-- Every reachable state satisfies the index invariant. -/
theorem vfio_reach_inv (ps : Nat) (st : VfioState) (h : VfioReach ps st) :
    MapInv st.iommu.map := by
  induction h with
  | init => exact List.Pairwise.nil
  | map st lvl d v len _ hdisj ih => exact vfio_map_vaddr_inv ps st lvl d v len ih hdisj
  | unmap st d v _ ih => exact vfio_unmap_vaddr_inv st d v ih

/-!
## Claim theorems
-/

/-- The state after `map(vaddr=0x2000, len=0x1000)` (insert drawn at level
1) from the initial context. -/
def exSt1 : VfioState := (vfio_map_vaddr 4096 vfio_init 1 (.ok ()) 8192 4096).1

/-- `exSt1` followed by `map(vaddr=0, len=0x4000)` (level 0): the second
region strictly contains the first, which `vfio_map_vaddr` does not check. -/
def exSt2 : VfioState := (vfio_map_vaddr 4096 exSt1 0 (.ok ()) 0 16384).1

/-- C6, counterexample: after the two `map` calls of `exSt2` — both
succeed, neither entry was ever unmapped — the address `13000` lies inside
the still-mapped entry `(0, 0x4000, 0x11000)`, yet `translate(13000)`
reports no mapping: the level-1 link of the first entry (end `0x3000 ≤
13000`) makes the descent jump past the containing level-0 entry.  This
refutes the claim for sequences with overlapping mapped regions. -/
theorem vfio_translate_miss_cx :
    iommu_vaddr_to_iova exSt2.iommu.map 13000 = none ∧
    (⟨⟨0, 16384, 69632⟩, 0⟩ : MapNode) ∈ exSt2.iommu.map.nodes ∧
    (0 : Nat) ≤ 13000 ∧ (13000 : Nat) < 0 + 16384 := by
  refine ⟨by decide, by decide, by decide, by decide⟩

/-- C6 (amended): for every sequence of `map`/`unmap` operations in which
each inserted region is disjoint from the still-mapped entries (the
non-overlap invariant of the data model), and every address `q` (below
`UINT64_MAX`, as required of a C pointer), `translate(q)` succeeds with
`entry.iova + (q − entry.vaddr)` iff `q` lies within some still-mapped
entry. -/
theorem vfio_translate_iff (ps : Nat) (st : VfioState) (h : VfioReach ps st)
    (q x : Nat) (_hq : q < UINT64MAX) :
    iommu_vaddr_to_iova st.iommu.map q = some x ↔
      ∃ n ∈ st.iommu.map.nodes,
        n.mapping.vaddr ≤ q ∧ q < n.mapping.vaddr + n.mapping.len ∧
          x = n.mapping.iova + (q - n.mapping.vaddr) := by
  have hinv := vfio_reach_inv ps st h
  unfold iommu_vaddr_to_iova iommu_find_mapping
  cases hf : iova_map_find st.iommu.map q with
  | none =>
    dsimp only
    constructor
    · intro hx; cases hx
    · rintro ⟨n, hn, hle, hlt, _⟩
      exact absurd ⟨hle, hlt⟩ ((iova_map_find_none_iff st.iommu.map q hinv).mp hf n hn)
  | some e =>
    dsimp only
    obtain ⟨n₀, hn₀, he₀, hle₀, hlt₀⟩ := (iova_map_find_some_iff st.iommu.map q hinv e).mp hf
    constructor
    · intro hx
      injection hx with hx
      refine ⟨n₀, hn₀, ?_, ?_, ?_⟩
      · rw [he₀]; exact hle₀
      · rw [he₀]; exact hlt₀
      · rw [he₀, hx]
    · rintro ⟨n, hn, hle, hlt, hx⟩
      have hun : n = n₀ := container_unique st.iommu.map hinv hn hn₀
        ⟨hle, hlt⟩ ⟨by rw [he₀]; exact hle₀, by show q < nodeEnd n₀; unfold nodeEnd; rw [he₀]; exact hlt₀⟩
      rw [hx, hun, he₀]

/-- C7: on an index satisfying the data-model invariant in which no entry
contains `v`, `insert(v, l, i)` succeeds; `find(v)` then returns exactly
`(v, l, i)`; `remove(v)` then succeeds; `find(v)` then returns none.  And
in general `find(q)` returns the unique entry with `vaddr ≤ q < vaddr +
len`, or none. -/
theorem iova_map_roundtrip (m : IovaMap) (l v len iova : Nat)
    (hinv : MapInv m) (hnone : iova_map_find m v = none) (hlen : 0 < len) :
    (∃ m₁, iova_map_add m l v len iova = .ok m₁ ∧
       iova_map_find m₁ v = some ⟨v, len, iova⟩ ∧
       ∃ m₂, iova_map_remove m₁ v = .ok m₂ ∧ iova_map_find m₂ v = none) ∧
    (∀ q e, iova_map_find m q = some e ↔
       ∃ n ∈ m.nodes, n.mapping = e ∧ e.vaddr ≤ q ∧ q < e.vaddr + e.len) := by
  refine ⟨?_, fun q e => iova_map_find_some_iff m q hinv e⟩
  have hadd := iova_map_add_eq m l v len iova hinv hnone
  refine ⟨_, hadd, find_after_add m l v len iova hinv hnone hlen _ hadd, ?_⟩
  obtain ⟨m₂, hrem, hm₂⟩ := remove_after_add m l v len iova hinv hnone hlen _ hadd
  refine ⟨m₂, hrem, ?_⟩
  have hinv₂ : MapInv m₂ := by
    show List.Pairwise NodeLE m₂.nodes
    rw [hm₂]; exact hinv
  rw [iova_map_find_none_iff m₂ v hinv₂]
  intro n hn
  rw [hm₂] at hn
  exact (iova_map_find_none_iff m v hinv).mp hnone n hn

/-- C9: `unmap(vaddr)` with no mapping containing `vaddr` succeeds leaving
the state untouched (and issues no backend call); consequently, on an
invariant-satisfying state where some entry contains `vaddr` and the
backend unmap succeeds, two consecutive `unmap(vaddr)` both succeed. -/
theorem vfio_unmap_idempotent :
    (∀ (st : VfioState) (d : Except Nat Unit) (v : Nat),
       iommu_find_mapping st.iommu.map v = none →
       vfio_unmap_vaddr st d v = (st, .ok (), [])) ∧
    (∀ (st : VfioState) (v : Nat), MapInv st.iommu.map →
       ∀ n ∈ st.iommu.map.nodes, n.mapping.vaddr ≤ v → v < nodeEnd n →
         (vfio_unmap_vaddr st (.ok ()) v).2.1 = .ok () ∧
         ∀ d₂ : Except Nat Unit,
           vfio_unmap_vaddr (vfio_unmap_vaddr st (.ok ()) v).1 d₂ v =
             ((vfio_unmap_vaddr st (.ok ()) v).1, .ok (), [])) := by
  constructor
  · intro st d v hf
    unfold vfio_unmap_vaddr
    rw [hf]
  · intro st v hinv n hn hle hlt
    have hfind : iommu_find_mapping st.iommu.map v = some n.mapping :=
      (iova_map_find_some_iff st.iommu.map v hinv n.mapping).mpr ⟨n, hn, rfl, hle, hlt⟩
    have hselflt : n.mapping.vaddr < nodeEnd n := by
      unfold nodeEnd at *; omega
    obtain ⟨m₂, hrem, hinv₂, hnone₂⟩ :=
      remove_container_spec st.iommu.map hinv hn (Nat.le_refl n.mapping.vaddr) hselflt
    have hremmap : iommu_remove_mapping st.iommu.map n.mapping.vaddr = m₂ := by
      unfold iommu_remove_mapping
      rw [hrem]
    have h1 : vfio_unmap_vaddr st (.ok ()) v =
        (⟨⟨iommu_remove_mapping st.iommu.map n.mapping.vaddr, st.iommu.next, st.iommu.ranges⟩,
          st.dma.eraseP
            (fun t => decide (t.2.2 = n.mapping.iova) && decide (t.2.1 = n.mapping.len))⟩,
          .ok (), [.dmaUnmap n.mapping.iova n.mapping.len]) := by
      unfold vfio_unmap_vaddr
      rw [hfind]
    constructor
    · rw [h1]
    · intro d₂
      rw [h1, hremmap]
      have hnone : iommu_find_mapping m₂ v = none := hnone₂ v hle hlt
      unfold vfio_unmap_vaddr
      dsimp only
      rw [hnone]

/-- C10: when `vaddr` lies inside an existing indexed entry, `map(vaddr,
len)` for any `len` — including one reaching past the entry's end —
returns the existing translation, changing nothing and issuing no backend
call. -/
theorem vfio_map_vaddr_existing (ps : Nat) (st : VfioState) (lvl : Nat)
    (d : Except Nat Unit) (v len : Nat) (hinv : MapInv st.iommu.map)
    (n : MapNode) (hn : n ∈ st.iommu.map.nodes)
    (hle : n.mapping.vaddr ≤ v) (hlt : v < nodeEnd n) :
    vfio_map_vaddr ps st lvl d v len =
      (st, .ok (n.mapping.iova + (v - n.mapping.vaddr)), []) := by
  have hfind : iova_map_find st.iommu.map v = some n.mapping :=
    (iova_map_find_some_iff st.iommu.map v hinv n.mapping).mpr ⟨n, hn, rfl, hle, hlt⟩
  unfold vfio_map_vaddr iommu_vaddr_to_iova iommu_find_mapping
  rw [hfind]

/-- C1, counterexample: from the initial context, `map(vaddr=1000, len=0)`
passes allocation (0 is page-aligned) and the backend `DMA_MAP` succeeds,
but the index insert fails (`EINVAL`).  The call surfaces the error, yet
issues no `DMA_UNMAP`: the installed kernel mapping remains. -/
theorem vfio_map_vaddr_no_unmap_cx :
    (vfio_map_vaddr 4096 vfio_init 0 (.ok ()) 1000 0).2.1 = .error EINVAL ∧
    (vfio_map_vaddr 4096 vfio_init 0 (.ok ()) 1000 0).1.dma = [(1000, 0, 65536)] ∧
    (vfio_map_vaddr 4096 vfio_init 0 (.ok ()) 1000 0).2.2 =
      [BackendCall.dmaMap 1000 0 65536] := by
  refine ⟨by decide, by decide, by decide⟩

/-- C1 (amended): whenever the backend `DMA_MAP` succeeds but the index
insert fails, `vfio_map_vaddr` surfaces the insert error to the caller —
but issues no `DMA_UNMAP`: the only backend call is the `DMA_MAP`, and the
just-installed kernel mapping remains in place. -/
theorem vfio_map_vaddr_insert_fail (ps : Nat) (st : VfioState) (lvl : Nat)
    (v len iova nx e : Nat)
    (htr : iommu_vaddr_to_iova st.iommu.map v = none)
    (halloc : iommu_get_iova ps st.iommu.next len st.iommu.ranges = .ok (iova, nx))
    (hins : iommu_add_mapping st.iommu.map lvl v len iova = .error e) :
    vfio_map_vaddr ps st lvl (.ok ()) v len =
      (⟨⟨st.iommu.map, nx, st.iommu.ranges⟩, (v, len, iova) :: st.dma⟩, .error e,
        [BackendCall.dmaMap v len iova]) := by
  unfold vfio_map_vaddr
  rw [htr, halloc]
  dsimp only
  rw [hins]

/-- C2 (code bug): clearing an index holding the single entry
`(0x1000, 0x1000, 0x10000)` runs the callback (and `free`) on the embedded
sentinel head and the `nil` tail as well as on the entry, because the guard
`n == &map->nil && n == &map->sentinel` in `iova_map_clear_with` can never
hold (one pointer cannot equal two distinct addresses; `||` is clearly
intended). -/
theorem iova_map_clear_frees_sentinels :
    iova_map_clear_with ⟨0, [⟨⟨4096, 4096, 65536⟩, 0⟩]⟩ =
      [ClearItem.sentinelN, ClearItem.entryN ⟨4096, 4096, 65536⟩, ClearItem.nilN] ∧
    ClearItem.sentinelN ∈ iova_map_clear_with ⟨0, [⟨⟨4096, 4096, 65536⟩, 0⟩]⟩ ∧
    ClearItem.nilN ∈ iova_map_clear_with ⟨0, [⟨⟨4096, 4096, 65536⟩, 0⟩]⟩ := by
  refine ⟨by decide, by decide, by decide⟩

/-- C3, counterexample: with `timeout_ns == 0` and no CQE available, the
wait does not fail with Timeout: across five observed (empty) polls the
call has not even returned — the `!timeout_ns` path calls
`nvme_cq_get_cqes`, which polls until a CQE arrives. -/
theorem nvme_cq_wait_zero_timeout_cx :
    nvme_cq_wait_cqes [none, none, none, none, none] 1 0 0 = none ∧
    ¬∃ r : WaitResult, nvme_cq_wait_cqes [none, none, none, none, none] 1 0 0 = some r ∧
      r.timedOut = true := by
  constructor
  · decide
  · rintro ⟨r, hr, _⟩
    rw [show nvme_cq_wait_cqes [none, none, none, none, none] 1 0 0 = none from by decide] at hr
    cases hr

theorem nvme_cq_get_cqes_replicate_none (n : Int) (hn : 0 < n) :
    ∀ (k : Nat) (acc : List Cqe),
      nvme_cq_get_cqes (List.replicate k (none : Option Cqe)) n acc = none := by
  intro k
  induction k with
  | zero => intro acc; rfl
  | succ k ih =>
    intro acc
    rw [List.replicate_succ]
    unfold nvme_cq_get_cqes
    rw [if_pos hn]
    exact ih acc

/-- C3 (amended): with `timeout_ns == 0` the wait never times out: if it
returns at all it returns 0 with `errno` untouched, and while no CQE is
available it keeps polling (it has not returned after any number of empty
polls). -/
theorem nvme_cq_wait_zero_no_timeout :
    (∀ (trace : PollTrace) (n : Int) (tmo : Nat) (r : WaitResult),
       nvme_cq_wait_cqes trace n 0 tmo = some r → r.ret = 0 ∧ r.timedOut = false) ∧
    (∀ (k : Nat) (n : Int) (tmo : Nat), 0 < n →
       nvme_cq_wait_cqes (List.replicate k (none : Option Cqe)) n 0 tmo = none) := by
  constructor
  · intro trace n tmo r hr
    unfold nvme_cq_wait_cqes at hr
    rw [if_pos rfl] at hr
    cases hg : nvme_cq_get_cqes trace n [] with
    | none => rw [hg] at hr; cases hr
    | some acc =>
      rw [hg] at hr
      injection hr with hr
      rw [← hr]
      exact ⟨rfl, rfl⟩
  · intro k n tmo hn
    unfold nvme_cq_wait_cqes
    rw [if_pos rfl, nvme_cq_get_cqes_replicate_none n hn k]

/-- A decisive spin failure reports its own errno. -/
theorem spinLoop_fail_errno :
    ∀ (l : List SpinOut) (err0 e err : Nat),
      spinLoop l err0 = some (some e, err) → err = e := by
  intro l
  induction l with
  | nil => intro err0 e err h; cases h
  | cons s rest ih =>
    intro err0 e err h
    cases s with
    | ok =>
      unfold spinLoop at h
      injection h with h
      injection h with h1 h2
      cases h1
    | again => exact ih EAGAIN e err h
    | fail e' =>
      unfold spinLoop at h
      injection h with h
      injection h with h1 h2
      injection h1 with h1
      rw [← h2, ← h1]

/-- C4, counterexample: every step of `nvme_oneshot` succeeds except the
teardown `vfio_unmap_ephemeral_iova`, which fails with errno 5 (`EIO`).
The call returns -1, but the errno visible to the caller is
`savederrno = 0`, not the errno of the step that failed. -/
theorem nvme_oneshot_unmap_errno_cx :
    nvme_oneshot ⟨true, true, .ok (), .ok (), [SpinOut.ok], .error 5⟩ 0 = some (-1, 0) ∧
    (0 : Nat) ≠ 5 := by
  refine ⟨by decide, by decide⟩

/-- C4 (amended): a failure of slot acquisition, the ephemeral map, the PRP
map, or the completion wait returns -1 with that step's errno preserved
across teardown; but when the teardown unmap is the only failing step, the
call returns -1 with `errno` restored to the saved value 0, not the unmap's
errno. -/
theorem nvme_oneshot_errno (env : OneshotEnv) (errno0 : Nat) :
    (env.acquireOk = false → nvme_oneshot env errno0 = some (-1, EBUSY)) ∧
    (∀ e, env.acquireOk = true → env.hasBuf = true → env.mapEph = .error e →
       nvme_oneshot env errno0 = some (-1, e)) ∧
    (∀ e, env.acquireOk = true → env.hasBuf = true → env.mapEph = .ok () →
       env.mapPrp = .error e → nvme_oneshot env errno0 = some (-1, e)) ∧
    (∀ e err, env.acquireOk = true → env.hasBuf = true → env.mapEph = .ok () →
       env.mapPrp = .ok () → spinLoop env.spin errno0 = some (some e, err) →
       nvme_oneshot env errno0 = some (-1, e)) ∧
    (∀ e err, env.acquireOk = true → env.hasBuf = false →
       spinLoop env.spin errno0 = some (some e, err) →
       nvme_oneshot env errno0 = some (-1, e)) ∧
    (∀ e err, env.acquireOk = true → env.hasBuf = true → env.mapEph = .ok () →
       env.mapPrp = .ok () → spinLoop env.spin errno0 = some (none, err) →
       env.unmapEph = .error e → nvme_oneshot env errno0 = some (-1, 0)) := by
  refine ⟨?_, ?_, ?_, ?_, ?_, ?_⟩
  · intro hacq
    unfold nvme_oneshot
    rw [hacq]
    simp
  · intro e hacq hbuf hmap
    unfold nvme_oneshot
    rw [hacq, hbuf, hmap]
    simp
  · intro e hacq hbuf hmap hprp
    unfold nvme_oneshot
    rw [hacq, hbuf, hmap, hprp]
    simp only [not_true_eq_false, ite_false, if_true]
    show some (oneshot_unmap env.unmapEph (-1) e e) = some (-1, e)
    unfold oneshot_unmap
    cases env.unmapEph <;> rfl
  · intro e err hacq hbuf hmap hprp hspin
    have herr : err = e := spinLoop_fail_errno env.spin errno0 e err hspin
    unfold nvme_oneshot
    rw [hacq, hbuf, hmap, hprp, hspin]
    simp only [not_true_eq_false, ite_false, if_true]
    show some (oneshot_unmap env.unmapEph (-1) e err) = some (-1, e)
    unfold oneshot_unmap
    cases env.unmapEph with
    | ok _ => rw [herr]
    | error _ => rfl
  · intro e err hacq hbuf hspin
    have herr : err = e := spinLoop_fail_errno env.spin errno0 e err hspin
    unfold nvme_oneshot
    rw [hacq, hbuf, hspin]
    simp only [not_true_eq_false, ite_false, Bool.false_eq_true, if_false]
    rw [herr]
  · intro e err hacq hbuf hmap hprp hspin hunmap
    unfold nvme_oneshot
    rw [hacq, hbuf, hmap, hprp, hspin, hunmap]
    simp only [not_true_eq_false, ite_false, if_true]
    rfl

theorem iommu_get_iova_loop_eq (next len : Nat) (hnext : 0 < next) (hlen : 0 < len) :
    ∀ ranges : List IovaRange, (∀ r ∈ ranges, r.last < U64) →
      iommu_get_iova_loop next len ranges = sticky_allocate_spec next len ranges := by
  intro ranges
  induction ranges with
  | nil => intro _; rfl
  | cons r rest ih =>
    intro hr
    have hrl : r.last < U64 := hr r (List.mem_cons_self r rest)
    have hrest := ih fun x hx => hr x (List.mem_cons_of_mem r hx)
    have hU : U64 = 2 ^ 64 := rfl
    unfold iommu_get_iova_loop sticky_allocate_spec
    dsimp only
    have hm1 : next ≤ max next r.start := Nat.le_max_left next r.start
    have hm2 : r.start ≤ max next r.start := Nat.le_max_right next r.start
    have hm3 : max next r.start = next ∨ max next r.start = r.start := max_choice next r.start
    by_cases hfit : max next r.start + len - 1 ≤ r.last
    · have h1 : ¬ r.last < next := by omega
      have h2 : ¬ (max next r.start > r.last ∨ (r.last - max next r.start + 1) % U64 < len) := by
        have hle : max next r.start ≤ r.last := by omega
        have hv : r.last - max next r.start + 1 < U64 := by rw [hU]; rw [hU] at hrl; omega
        rw [Nat.mod_eq_of_lt hv]
        omega
      rw [if_neg h1, if_neg h2, if_pos hfit]
    · rw [if_neg hfit]
      by_cases h1 : r.last < next
      · rw [if_pos h1]
        exact hrest
      · rw [if_neg h1]
        have h2 : max next r.start > r.last ∨ (r.last - max next r.start + 1) % U64 < len := by
          by_cases h3 : max next r.start > r.last
          · exact Or.inl h3
          · refine Or.inr ?_
            have hle : max next r.start ≤ r.last := by omega
            have hv : r.last - max next r.start + 1 < U64 := by rw [hU]; rw [hU] at hrl; omega
            rw [Nat.mod_eq_of_lt hv]
            omega
        rw [if_pos h2]
        exact hrest

theorem sticky_allocate_spec_none_iff (next len : Nat) :
    ∀ ranges : List IovaRange,
      sticky_allocate_spec next len ranges = none ↔
        ∀ r ∈ ranges, ¬ max next r.start + len - 1 ≤ r.last := by
  intro ranges
  induction ranges with
  | nil => simp [sticky_allocate_spec]
  | cons r rest ih =>
    unfold sticky_allocate_spec
    dsimp only
    by_cases hfit : max next r.start + len - 1 ≤ r.last
    · rw [if_pos hfit]
      constructor
      · intro h; cases h
      · intro h
        exact absurd hfit (h r (List.mem_cons_self r rest))
    · rw [if_neg hfit]
      rw [ih]
      constructor
      · intro h x hx
        rcases List.mem_cons.mp hx with rfl | hx'
        · exact hfit
        · exact h x hx'
      · intro h x hx
        exact h x (List.mem_cons_of_mem r hx)

/-- C5 (amended): for a page-multiple `len > 0` and a live cursor
(`0 < next`, as holds in every context state: the cursor starts at
`0x10000`), `iommu_get_iova` implements exactly the specification's
first-fit bump policy, failing with `ENOMEM` (NoSpace) when no range fits;
a request for which some range has room — e.g. one exactly equal to a
range's remaining capacity — succeeds; and a `len` that is not a multiple
of the page size (e.g. capacity plus one byte) is rejected with `EINVAL`
(Invalid), not `ENOMEM`. -/
theorem iommu_get_iova_firstFit (ps next len : Nat) (ranges : List IovaRange)
    (hnext : 0 < next) (hlen : 0 < len) (hal : len % ps = 0)
    (hr : ∀ r ∈ ranges, r.last < U64) :
    (iommu_get_iova ps next len ranges =
       match sticky_allocate_spec next len ranges with
       | some p => .ok p
       | none => .error ENOMEM) ∧
    ((∃ r ∈ ranges, max next r.start + len - 1 ≤ r.last) →
       ∃ p, iommu_get_iova ps next len ranges = .ok p) ∧
    (∀ len', len' % ps ≠ 0 → iommu_get_iova ps next len' ranges = .error EINVAL) := by
  have hmain : iommu_get_iova ps next len ranges =
      match sticky_allocate_spec next len ranges with
      | some p => .ok p
      | none => .error ENOMEM := by
    unfold iommu_get_iova
    rw [if_neg (by simp [hal]), iommu_get_iova_loop_eq next len hnext hlen ranges hr]
  refine ⟨hmain, ?_, ?_⟩
  · rintro ⟨r, hrm, hfit⟩
    rw [hmain]
    cases hs : sticky_allocate_spec next len ranges with
    | some p => exact ⟨p, rfl⟩
    | none =>
      exact absurd hfit ((sticky_allocate_spec_none_iff next len ranges).mp hs r hrm)
  · intro len' h
    unfold iommu_get_iova
    rw [if_pos h]

/-- C5, counterexample: with page size 4096, cursor `0x10000` and the
single range `[0x10000, 0x1ffff]` (remaining capacity `0x10000`), a
request of exactly the capacity succeeds, but one byte more fails with
`EINVAL` (Invalid — the length is no longer page-aligned), not `ENOMEM`
(NoSpace); one more page fails with `ENOMEM`. -/
theorem iommu_get_iova_onebyte_cx :
    iommu_get_iova 4096 65536 65536 [⟨65536, 131071⟩] = .ok (65536, 131072) ∧
    iommu_get_iova 4096 65536 65537 [⟨65536, 131071⟩] = .error EINVAL ∧
    iommu_get_iova 4096 65536 69632 [⟨65536, 131071⟩] = .error ENOMEM ∧
    EINVAL ≠ ENOMEM := by
  refine ⟨by decide, by decide, by decide, by decide⟩

theorem nvme_crc64_loop_eq (table : Nat → Nat) :
    ∀ (buffer : List Nat) (crc : Nat), (∀ b ∈ buffer, b < 256) →
      nvme_crc64_loop table crc buffer =
        buffer.foldl (fun c b => (c >>> 8) ^^^ table ((c ^^^ b) &&& 0xff)) crc := by
  intro buffer
  induction buffer with
  | nil => intro crc _; rfl
  | cons b rest ih =>
    intro crc hb
    have hb0 : b < 256 := hb b (List.mem_cons_self b rest)
    have h1 : b &&& 255 = b := by
      have h := Nat.and_pow_two_sub_one_eq_mod b 8
      norm_num at h
      rw [h]
      exact Nat.mod_eq_of_lt hb0
    have hstep : (crc &&& 255) ^^^ b = (crc ^^^ b) &&& 255 := by
      calc (crc &&& 255) ^^^ b = (crc &&& 255) ^^^ (b &&& 255) := by rw [h1]
        _ = (crc ^^^ b) &&& 255 := (Nat.and_xor_distrib_right).symm
    unfold nvme_crc64_loop
    rw [List.foldl_cons, hstep]
    exact ih _ fun x hx => hb x (List.mem_cons_of_mem b hx)

/-- C8: for every table, seed and byte buffer, `nvme_crc64` equals the
left-to-right fold of `crc = (crc >> 8) ^ table[(crc ^ byte) & 0xff]`
seeded with `crc`, XORed at the end with all-ones (`2^64 − 1`).  (The C
source indexes the table with `(crc & 0xff) ^ buffer[i]`, which agrees
because bytes are below 256.) -/
theorem nvme_crc64_fold (table : Nat → Nat) (crc : Nat) (buffer : List Nat)
    (hb : ∀ b ∈ buffer, b < 256) :
    nvme_crc64 table crc buffer = crc64_fold_spec table crc buffer := by
  unfold nvme_crc64 crc64_fold_spec
  rw [nvme_crc64_loop_eq table buffer crc hb]
  rfl

/-!
## Concrete witnesses
-/

theorem vfio_map_vaddr_insert_fail_w :
    vfio_map_vaddr 4096 vfio_init 0 (.ok ()) 1000 0 =
      (⟨⟨vfio_init.iommu.map, 65536, vfio_init.iommu.ranges⟩, [(1000, 0, 65536)]⟩,
        .error EINVAL, [BackendCall.dmaMap 1000 0 65536]) :=
  vfio_map_vaddr_insert_fail 4096 vfio_init 0 1000 0 65536 65536 EINVAL
    (by decide) (by decide) (by decide)

theorem nvme_cq_wait_zero_no_timeout_w :
    ((⟨0, [7], false⟩ : WaitResult).ret = 0 ∧ (⟨0, [7], false⟩ : WaitResult).timedOut = false) ∧
    nvme_cq_wait_cqes (List.replicate 3 (none : Option Cqe)) 2 0 5 = none :=
  ⟨nvme_cq_wait_zero_no_timeout.1 [some 7] 1 0 ⟨0, [7], false⟩ (by decide),
   nvme_cq_wait_zero_no_timeout.2 3 2 5 (by decide)⟩

theorem nvme_oneshot_errno_w :
    nvme_oneshot ⟨true, true, .error 12, .ok (), [], .ok ()⟩ 0 = some (-1, 12) ∧
    nvme_oneshot ⟨true, true, .ok (), .ok (), [SpinOut.again, SpinOut.fail 110], .ok ()⟩ 0 =
      some (-1, 110) :=
  ⟨(nvme_oneshot_errno ⟨true, true, .error 12, .ok (), [], .ok ()⟩ 0).2.1 12 rfl rfl rfl,
   (nvme_oneshot_errno ⟨true, true, .ok (), .ok (), [SpinOut.again, SpinOut.fail 110], .ok ()⟩
     0).2.2.2.1 110 110 rfl rfl rfl rfl (by decide)⟩

theorem iommu_get_iova_firstFit_w :
    iommu_get_iova 4096 65536 65536 [⟨65536, 131071⟩] = .ok (65536, 131072) := by
  have h := (iommu_get_iova_firstFit 4096 65536 65536 [⟨65536, 131071⟩]
    (by decide) (by decide) (by decide) (by decide)).1
  rw [h]
  decide

theorem vfio_translate_iff_w :
    iommu_vaddr_to_iova exSt1.iommu.map 8195 = some 65539 :=
  (vfio_translate_iff 4096 exSt1
    (VfioReach.map vfio_init 1 (.ok ()) 8192 4096 VfioReach.init (by decide))
    8195 65539 (by decide)).mpr
    ⟨⟨⟨8192, 4096, 65536⟩, 1⟩, by decide, by decide, by decide, by decide⟩

theorem iova_map_roundtrip_w :
    ∃ m₁, iova_map_add ⟨0, []⟩ 2 4096 8192 65536 = .ok m₁ ∧
      iova_map_find m₁ 4096 = some ⟨4096, 8192, 65536⟩ ∧
      ∃ m₂, iova_map_remove m₁ 4096 = .ok m₂ ∧ iova_map_find m₂ 4096 = none :=
  (iova_map_roundtrip ⟨0, []⟩ 2 4096 8192 65536 List.Pairwise.nil (by decide) (by decide)).1

theorem nvme_crc64_fold_w :
    nvme_crc64 (fun b => b * 3 + 1) 5 [1, 200, 255] =
      crc64_fold_spec (fun b => b * 3 + 1) 5 [1, 200, 255] :=
  nvme_crc64_fold (fun b => b * 3 + 1) 5 [1, 200, 255] (by decide)

theorem vfio_unmap_idempotent_w :
    (vfio_unmap_vaddr exSt1 (.ok ()) 8192).2.1 = .ok () ∧
    vfio_unmap_vaddr (vfio_unmap_vaddr exSt1 (.ok ()) 8192).1 (.ok ()) 8192 =
      ((vfio_unmap_vaddr exSt1 (.ok ()) 8192).1, .ok (), []) := by
  have h := vfio_unmap_idempotent.2 exSt1 8192 (by decide) ⟨⟨8192, 4096, 65536⟩, 1⟩
    (by decide) (by decide) (by decide)
  exact ⟨h.1, h.2 (.ok ())⟩

theorem vfio_map_vaddr_existing_w :
    vfio_map_vaddr 4096 exSt1 0 (.ok ()) 8200 1000000 = (exSt1, .ok 65544, []) := by
  have h := vfio_map_vaddr_existing 4096 exSt1 0 (.ok ()) 8200 1000000 (by decide)
    ⟨⟨8192, 4096, 65536⟩, 1⟩ (by decide) (by decide) (by decide)
  exact h

end LibVfn
